import Mathlib

/-!
# Reprojection factors of `myslam` (`include/myslam/GraphUtils.h`)

A shallow embedding of the four g2o classes of `GraphUtils.h`:

* `VertexPose`   (spec: PoseVariable),
* `VertexXYZ`    (spec: LandmarkVariable),
* `EdgeProjectionPoseOnly` (spec: PoseOnlyReprojectionFactor),
* `EdgeProjection`         (spec: ReprojectionFactor).

Scalars: the C++ `double` is read as an element of a field `F` (exact
arithmetic).  All definitions translated from the header are polymorphic in
`F` and computable; they are evaluated over `ℚ` and analysed over `ℝ`.
A floating-point division is embedded as the guarded division `fdiv`, which
returns `none` at a zero divisor.  Rounding and overflow of binary64 are not
modelled: a returned value says that no division by zero took place, not that
the double computed by the code is finite or equal to the exact value.

Types that the header only names (`Vec2`, `Vec3`, `Vec6`, `Mat33`, `SE3` come
from `common_include.h`, Eigen and Sophus) are modelled below.
-/

namespace myslam

/-! ## Eigen vectors and matrices -/

/-- Eigen `Vec2` (`Eigen::Matrix<double, 2, 1>`). -/
abbrev Vec2 (F : Type) := Fin 2 → F

/-- Eigen `Vec3`. -/
abbrev Vec3 (F : Type) := Fin 3 → F

/-- Eigen `Vec6`. -/
abbrev Vec6 (F : Type) := Fin 6 → F

/-- Eigen `Mat33`. -/
abbrev Mat33 (F : Type) := Matrix (Fin 3) (Fin 3) F

/-- Guarded scalar division in exact arithmetic: the quotient `a / b` of the
field, `none` when the divisor is zero (where the double quotient is `±inf` or
`NaN`).  Overflow and rounding of doubles are not modelled, so `some q` means
that no division by zero took place, not that the double result is finite. -/
def fdiv {F : Type} [Field F] [DecidableEq F] (a b : F) : Option F :=
  if b = 0 then none else some (a / b)

/-- Eigen `v /= s` on a 3-vector: every coefficient is divided by the scalar. -/
def vdiv {F : Type} [Field F] [DecidableEq F] (v : Vec3 F) (s : F) : Option (Vec3 F) :=
  (fdiv (v 0) s).bind fun x =>
  (fdiv (v 1) s).bind fun y =>
  (fdiv (v 2) s).bind fun z =>
  some ![x, y, z]

/-- Eigen `v.head<2>()`: the first two coefficients. -/
def head2 {F : Type} (v : Vec3 F) : Vec2 F := ![v 0, v 1]

/-- Eigen comma initialiser `m << c0, c1, ...`: the coefficients fill the
`r × c` matrix row by row, whatever the line breaks of the source. -/
def commaInit {F : Type} [Zero F] (r c : Nat) (coeffs : List F) : Matrix (Fin r) (Fin c) F :=
  Matrix.of fun i j => coeffs.getD (i.val * c + j.val) 0

/-- Eigen `m.block<2, 3>(0, 0)` of a `2 × 6` matrix: the block of two rows and
three columns that starts at row `0`, column `0`. -/
def block23 {F : Type} (m : Matrix (Fin 2) (Fin 6) F) : Matrix (Fin 2) (Fin 3) F :=
  !![m 0 0, m 0 1, m 0 2;
     m 1 0, m 1 1, m 1 2]

/-! ## Sophus `SE3` -/

/-- Modelled from the spec: the type `SE3` (Sophus, named through
`common_include.h`) is not declared in this repository; the spec calls it a
"rigid transform (rotation + translation)".  A value is a rotation block `R`
and a translation `t`; that `R` is a rotation is the invariant `IsRotation`,
not part of the type. -/
structure SE3 (F : Type) where
  /-- Rotation block, `rotationMatrix()`. -/
  R : Mat33 F
  /-- Translation. -/
  t : Vec3 F

namespace SE3

variable {F : Type} [Field F]

/-- Modelled from the spec: the default constructor `SE3()`, "the identity
rigid transform". -/
def identity : SE3 F := ⟨1, 0⟩

/-- Modelled from the spec: the composition `A * B` of two rigid transforms
(`B` is applied first). -/
def mul (A B : SE3 F) : SE3 F := ⟨A.R * B.R, A.R.mulVec B.t + A.t⟩

/-- Modelled from the spec: the action `T * p` of a rigid transform on a
point, `R p + t`. -/
def act (T : SE3 F) (p : Vec3 F) : Vec3 F := T.R.mulVec p + T.t

/-- Modelled from the spec: the accessor `T.rotationMatrix()`, the rotation
block. -/
def rotationMatrix (T : SE3 F) : Mat33 F := T.R

/-- Read a transform off the first three rows of a `4 × 4` matrix. -/
def ofHom (M : Matrix (Fin 4) (Fin 4) F) : SE3 F :=
  ⟨Matrix.of fun i j => M i.castSucc j.castSucc, fun i => M i.castSucc 3⟩

/-- Lie-algebra `hat` of Sophus: the tangent vector is ordered translation
first (`a 0, a 1, a 2`), rotation last (`a 3, a 4, a 5`). -/
def hat (a : Vec6 F) : Matrix (Fin 4) (Fin 4) F :=
  !![0, -a 5, a 4, a 0;
     a 5, 0, -a 3, a 1;
     -a 4, a 3, 0, a 2;
     0, 0, 0, 0]

/-- The rotation part of `hat`: the skew matrix of `(a 3, a 4, a 5)`. -/
def hatRot (a : Vec6 F) : Mat33 F :=
  !![0, -a 5, a 4;
     a 5, 0, -a 3;
     -a 4, a 3, 0]

/-- Modelled from the spec: `SE3::exp` is Sophus code, not in this repository.
The spec: "`Exp` maps a 6-vector (3 rotation + 3 translation generators) to a
rigid transform via the matrix exponential of the rigid-motion Lie algebra".
Over the reals this is the matrix exponential of `hat a`. -/
noncomputable def exp (a : Vec6 ℝ) : SE3 ℝ := ofHom (NormedSpace.exp ℝ (hat a))

/-- The invariant of the spec: `R` is orthonormal with determinant one. -/
def IsRotation (M : Mat33 F) : Prop := M.transpose * M = 1 ∧ M.det = 1

end SE3

/-! ## `VertexPose` -/

namespace VertexPose

variable {F : Type} [Field F]

/-- Method `setToOriginImpl`: `_estimate = SE3()`. -/
def setToOriginImpl : SE3 F := SE3.identity

/-- Method `oplusImpl(update)`: `_estimate = SE3::exp(update_eigen) * _estimate`,
where `update_eigen << update[0], ..., update[5]`.  The exponential is the
parameter `Exp` (over the reals, `SE3.exp`). -/
def oplusImpl (Exp : Vec6 F → SE3 F) (estimate : SE3 F) (update : Fin 6 → F) : SE3 F :=
  let update_eigen : Vec6 F :=
    Matrix.vecCons (update 0) (Matrix.vecCons (update 1) (Matrix.vecCons (update 2)
      (Matrix.vecCons (update 3) (Matrix.vecCons (update 4) (Matrix.vecCons (update 5)
        Matrix.vecEmpty)))))
  (Exp update_eigen).mul estimate

end VertexPose

/-! ## `VertexXYZ` -/

namespace VertexXYZ

variable {F : Type} [Field F]

/-- Method `setToOriginImpl`: `_estimate = Vec3::Zero()`. -/
def setToOriginImpl : Vec3 F := 0

/-- Method `oplusImpl(update)`: `_estimate[i] += update[i]` for `i = 0, 1, 2`. -/
def oplusImpl (estimate : Vec3 F) (update : Fin 3 → F) : Vec3 F :=
  ![estimate 0 + update 0, estimate 1 + update 1, estimate 2 + update 2]

end VertexXYZ

/-- The literal `1e-18` added to the depth in both `linearizeOplus`, read as the
exact number `10⁻¹⁸` (its binary64 value is `depthEpsDouble`). -/
def depthEps {F : Type} [Field F] : F := 1 / 10 ^ 18

/-! ## `EdgeProjectionPoseOnly` -/

namespace EdgeProjectionPoseOnly

variable {F : Type} [Field F] [DecidableEq F]

/-- Method `computeError`, as a function of the members `_pos3d`, `_K`,
`_measurement` and of the estimate `T` of the vertex:
`pos_pixel = _K * (T * _pos3d); pos_pixel /= pos_pixel[2];
_error = _measurement - pos_pixel.head<2>()`. -/
def computeError (pos3d : Vec3 F) (K : Mat33 F) (measurement : Vec2 F) (T : SE3 F) :
    Option (Vec2 F) :=
  let pos_pixel : Vec3 F := K.mulVec (T.act pos3d)
  (vdiv pos_pixel (pos_pixel 2)).map fun pos_pixel => measurement - head2 pos_pixel

/-- Method `linearizeOplus`, with the additive constant of the depth as the parameter
`eps` (the header's value is `depthEps`, i.e. `1e-18`). -/
def linearizeOplusWith (eps : F) (pos3d : Vec3 F) (K : Mat33 F) (T : SE3 F) :
    Option (Matrix (Fin 2) (Fin 6) F) :=
  let pos_cam : Vec3 F := T.act pos3d
  let fx := K 0 0
  let fy := K 1 1
  let X := pos_cam 0
  let Y := pos_cam 1
  let Z := pos_cam 2
  (fdiv 1 (Z + eps)).map fun Zinv =>
    let Zinv2 := Zinv * Zinv
    commaInit 2 6 [-fx * Zinv, 0, fx * X * Zinv2, fx * X * Y * Zinv2,
      -fx - fx * X * X * Zinv2, fx * Y * Zinv, 0, -fy * Zinv,
      fy * Y * Zinv2, fy + fy * Y * Y * Zinv2, -fy * X * Y * Zinv2,
      -fy * X * Zinv]

/-- Method `linearizeOplus` as written in the header: `Zinv = 1.0 / (Z + 1e-18)`. -/
def linearizeOplus (pos3d : Vec3 F) (K : Mat33 F) (T : SE3 F) :
    Option (Matrix (Fin 2) (Fin 6) F) :=
  linearizeOplusWith depthEps pos3d K T

end EdgeProjectionPoseOnly

/-! ## `EdgeProjection` -/

namespace EdgeProjection

variable {F : Type} [Field F] [DecidableEq F]

/-- Method `computeError`, as a function of the members `_K`, `_cam_ext`,
`_measurement` and of the estimates `T` (pose vertex) and `pw` (landmark
vertex): `pos_pixel = _K * (_cam_ext * (T * v1->estimate()))`, then as in the
pose-only edge. -/
def computeError (K : Mat33 F) (cam_ext : SE3 F) (measurement : Vec2 F) (T : SE3 F)
    (pw : Vec3 F) : Option (Vec2 F) :=
  let pos_pixel : Vec3 F := K.mulVec (cam_ext.act (T.act pw))
  (vdiv pos_pixel (pos_pixel 2)).map fun pos_pixel => measurement - head2 pos_pixel

/-- Method `linearizeOplus`: the pair `(_jacobianOplusXi, _jacobianOplusXj)`, with the
additive constant of the depth as the parameter `eps`.  The camera point is
`_cam_ext * T * pw`: the two transforms are composed first. -/
def linearizeOplusWith (eps : F) (K : Mat33 F) (cam_ext : SE3 F) (T : SE3 F) (pw : Vec3 F) :
    Option (Matrix (Fin 2) (Fin 6) F × Matrix (Fin 2) (Fin 3) F) :=
  let pos_cam : Vec3 F := (cam_ext.mul T).act pw
  let fx := K 0 0
  let fy := K 1 1
  let X := pos_cam 0
  let Y := pos_cam 1
  let Z := pos_cam 2
  (fdiv 1 (Z + eps)).map fun Zinv =>
    let Zinv2 := Zinv * Zinv
    let jacobianOplusXi : Matrix (Fin 2) (Fin 6) F :=
      commaInit 2 6 [-fx * Zinv, 0, fx * X * Zinv2, fx * X * Y * Zinv2,
        -fx - fx * X * X * Zinv2, fx * Y * Zinv, 0, -fy * Zinv,
        fy * Y * Zinv2, fy + fy * Y * Y * Zinv2, -fy * X * Y * Zinv2,
        -fy * X * Zinv]
    let jacobianOplusXj : Matrix (Fin 2) (Fin 3) F :=
      block23 jacobianOplusXi * cam_ext.rotationMatrix * T.rotationMatrix
    (jacobianOplusXi, jacobianOplusXj)

/-- Method `linearizeOplus` as written in the header: `Zinv = 1.0 / (Z + 1e-18)`. -/
def linearizeOplus (K : Mat33 F) (cam_ext : SE3 F) (T : SE3 F) (pw : Vec3 F) :
    Option (Matrix (Fin 2) (Fin 6) F × Matrix (Fin 2) (Fin 3) F) :=
  linearizeOplusWith depthEps K cam_ext T pw

end EdgeProjection

/-- Intrinsics of a pinhole camera, `[[fx, 0, cx], [0, fy, cy], [0, 0, 1]]`. -/
def pinhole {F : Type} [Field F] (fx fy cx cy : F) : Mat33 F :=
  !![fx, 0, cx; 0, fy, cy; 0, 0, 1]

/-! ## Notions used to state the claims -/

/-- The map `hat` as a linear map. -/
def SE3.hatL {F : Type} [Field F] : Vec6 F →ₗ[F] Matrix (Fin 4) (Fin 4) F where
  toFun := SE3.hat
  map_add' a b := by
    ext i j
    fin_cases i <;> fin_cases j <;>
      simp [SE3.hat, Matrix.vecHead, Matrix.vecTail] <;> ring
  map_smul' c a := by
    ext i j
    fin_cases i <;> fin_cases j <;> simp [SE3.hat, Matrix.vecHead, Matrix.vecTail]

/-- The rotation block of a `4 × 4` matrix, as a linear map. -/
def SE3.blockL : Matrix (Fin 4) (Fin 4) ℝ →ₗ[ℝ] Mat33 ℝ where
  toFun M := Matrix.of fun i j => M i.castSucc j.castSucc
  map_add' _ _ := rfl
  map_smul' _ _ := rfl

/-- One call of the solver on a pose vertex: a reset or an update. -/
inductive VertexPose.Op (F : Type) where
  | setToOrigin : VertexPose.Op F
  | oplus (update : Fin 6 → F) : VertexPose.Op F

/-- The estimate after one call. -/
def VertexPose.step {F : Type} [Field F] (Exp : Vec6 F → SE3 F) (estimate : SE3 F) :
    VertexPose.Op F → SE3 F
  | VertexPose.Op.setToOrigin => VertexPose.setToOriginImpl
  | VertexPose.Op.oplus update => VertexPose.oplusImpl Exp estimate update

/-- The estimate after a sequence of calls, first call first. -/
def VertexPose.run {F : Type} [Field F] (Exp : Vec6 F → SE3 F) (estimate : SE3 F)
    (ops : List (VertexPose.Op F)) : SE3 F :=
  ops.foldl (VertexPose.step Exp) estimate

/-- The continuous linear map `v ↦ J v` of a real matrix. -/
noncomputable def matMap {m n : Nat} (J : Matrix (Fin m) (Fin n) ℝ) :
    (Fin n → ℝ) →L[ℝ] (Fin m → ℝ) :=
  LinearMap.toContinuousLinearMap (Matrix.mulVecLin J)

/-- A residual `f` (a guarded function of a perturbation) has the Jacobian `J`
at zero: near `0` it returns a value, and that value, as a function of the
perturbation, has the Fréchet derivative `v ↦ J v` at `0`. -/
def HasJacobianAtZero {n : Nat} (f : (Fin n → ℝ) → Option (Vec2 ℝ))
    (J : Matrix (Fin 2) (Fin n) ℝ) : Prop :=
  ∃ r : (Fin n → ℝ) → Vec2 ℝ,
    (∀ᶠ d in nhds (0 : Fin n → ℝ), f d = some (r d)) ∧ HasFDerivAt r (matMap J) 0

/-- The residual as a function of the camera-frame point `c`, with the
division of the field: `measurement - (h 0 / h 2, h 1 / h 2)`, `h = K c`. -/
def projResidual {F : Type} [Field F] (K : Mat33 F) (m : Vec2 F) (c : Vec3 F) : Vec2 F :=
  m - head2 fun i => (K.mulVec c) i / (K.mulVec c) 2

/-- The derivative of `projResidual` in the camera-frame point `c`, for
pinhole intrinsics with focal lengths `fx`, `fy`. -/
def projJac {F : Type} [Field F] (fx fy : F) (c : Vec3 F) : Matrix (Fin 2) (Fin 3) F :=
  !![-fx / c 2, 0, fx * c 0 / (c 2) ^ 2;
     0, -fy / c 2, fy * c 1 / (c 2) ^ 2]

/-- The derivative at `0` of `a ↦ Exp(a) · P`: the matrix `[I | -P^]`. -/
def pointJac {F : Type} [Field F] (P : Vec3 F) : Matrix (Fin 3) (Fin 6) F :=
  !![1, 0, 0, 0, P 2, -P 1;
     0, 1, 0, -P 2, 0, P 0;
     0, 0, 1, P 1, -P 0, 0]

/-- A finite binary64 number: `m · 2 ^ a / 2 ^ b` with an integer `|m| < 2 ^ 53`
and exponents `a ≤ 971`, `b ≤ 1074`. -/
def IsDouble (x : ℚ) : Prop :=
  ∃ (m : ℤ) (a b : ℕ), |m| < 2 ^ 53 ∧ a ≤ 971 ∧ b ≤ 1074 ∧ x = m * 2 ^ a / 2 ^ b

/-! ## Algebra of transforms -/

theorem vec6_val_five {F : Type} (a b c d e f : F) : ![a, b, c, d, e, f] 5 = f := rfl

theorem SE3.eq_iff {F : Type} (A B : SE3 F) : A = B ↔ A.R = B.R ∧ A.t = B.t := by
  cases A; cases B; simp

section Algebra

variable {F : Type} [Field F]

theorem SE3.act_mul (A B : SE3 F) (p : Vec3 F) : (A.mul B).act p = A.act (B.act p) := by
  simp [SE3.mul, SE3.act, Matrix.mulVec_add, Matrix.mulVec_mulVec, add_assoc]

theorem SE3.mul_assoc (A B C : SE3 F) : (A.mul B).mul C = A.mul (B.mul C) := by
  simp [SE3.mul, SE3.eq_iff, Matrix.mul_assoc, Matrix.mulVec_add, Matrix.mulVec_mulVec,
    add_assoc]

theorem SE3.identity_mul (A : SE3 F) : SE3.identity.mul A = A := by
  simp [SE3.mul, SE3.identity, SE3.eq_iff]

theorem SE3.identity_act (p : Vec3 F) : (SE3.identity : SE3 F).act p = p := by
  simp [SE3.act, SE3.identity]

theorem VertexPose.oplusImpl_eq_mul (Exp : Vec6 F → SE3 F) (T : SE3 F) (u : Fin 6 → F) :
    VertexPose.oplusImpl Exp T u = (Exp u).mul T := by
  have h : (![u 0, u 1, u 2, u 3, u 4, u 5] : Vec6 F) = u := by
    ext i
    fin_cases i <;> rfl
  simp only [VertexPose.oplusImpl]
  rw [h]

theorem VertexXYZ.oplusImpl_eq_add (p d : Vec3 F) : VertexXYZ.oplusImpl p d = p + d := by
  ext i
  fin_cases i <;> rfl

theorem vdiv_eq [DecidableEq F] (v : Vec3 F) (s : F) :
    vdiv v s = if s = 0 then none else some ![v 0 / s, v 1 / s, v 2 / s] := by
  unfold vdiv fdiv
  split_ifs <;> simp

theorem EdgeProjection.computeError_eq_binary [DecidableEq F] (K : Mat33 F) (E : SE3 F) (m : Vec2 F)
    (T : SE3 F) (pw : Vec3 F) :
    EdgeProjection.computeError K E m T pw =
      if (K.mulVec (E.act (T.act pw))) 2 = 0 then none
      else some (projResidual K m (E.act (T.act pw))) := by
  simp only [EdgeProjection.computeError, vdiv_eq]
  split_ifs <;> simp [projResidual, head2]

theorem EdgeProjectionPoseOnly.computeError_eq_unary [DecidableEq F] (pos3d : Vec3 F) (K : Mat33 F)
    (m : Vec2 F) (T : SE3 F) :
    EdgeProjectionPoseOnly.computeError pos3d K m T =
      if (K.mulVec (T.act pos3d)) 2 = 0 then none
      else some (projResidual K m (T.act pos3d)) := by
  simp only [EdgeProjectionPoseOnly.computeError, vdiv_eq]
  split_ifs <;> simp [projResidual, head2]

theorem pinhole_mulVec_two (fx fy cx cy : F) (c : Vec3 F) :
    ((pinhole fx fy cx cy).mulVec c) 2 = c 2 := by
  simp [pinhole, Matrix.mulVec, Matrix.dotProduct, Fin.sum_univ_three]

end Algebra

/-! ## Calculus of the projection -/

section Calculus

theorem matMap_apply {m n : Nat} (J : Matrix (Fin m) (Fin n) ℝ) (v : Fin n → ℝ) :
    matMap J v = J.mulVec v := rfl

theorem matMap_mul {l m n : Nat} (A : Matrix (Fin l) (Fin m) ℝ) (B : Matrix (Fin m) (Fin n) ℝ) :
    matMap (A * B) = (matMap A).comp (matMap B) := by
  ext v i
  simp [matMap_apply, Matrix.mulVec_mulVec]

theorem matMap_injective {m n : Nat} (A B : Matrix (Fin m) (Fin n) ℝ) (h : matMap A = matMap B) :
    A = B := by
  ext i j
  have h1 := congrFun (congrArg (fun L => L (Pi.single j 1)) h) i
  simpa [matMap_apply] using h1

theorem hasFDerivAt_exp_hat_entry (i j : Fin 4) :
    HasFDerivAt (fun a : Vec6 ℝ => NormedSpace.exp ℝ (SE3.hat a) i j)
      (LinearMap.toContinuousLinearMap
        ((Matrix.entryLinearMap ℝ ℝ i j).comp SE3.hatL)) 0 := by
  letI : NormedRing (Matrix (Fin 4) (Fin 4) ℝ) := Matrix.linftyOpNormedRing
  letI : NormedAlgebra ℝ (Matrix (Fin 4) (Fin 4) ℝ) := Matrix.linftyOpNormedAlgebra
  have h1 : HasFDerivAt (NormedSpace.exp ℝ : Matrix (Fin 4) (Fin 4) ℝ → _)
      (1 : Matrix (Fin 4) (Fin 4) ℝ →L[ℝ] Matrix (Fin 4) (Fin 4) ℝ) 0 := hasFDerivAt_exp_zero
  let L : Vec6 ℝ →L[ℝ] Matrix (Fin 4) (Fin 4) ℝ := LinearMap.toContinuousLinearMap SE3.hatL
  have h2 : HasFDerivAt (fun a : Vec6 ℝ => SE3.hat a) L 0 := L.hasFDerivAt
  have h0 : SE3.hat (0 : Vec6 ℝ) = 0 := SE3.hatL.map_zero
  rw [← h0] at h1
  have h3 := h1.comp 0 h2
  let e : Matrix (Fin 4) (Fin 4) ℝ →L[ℝ] ℝ :=
    LinearMap.toContinuousLinearMap (Matrix.entryLinearMap ℝ ℝ i j)
  exact (e.hasFDerivAt (x := NormedSpace.exp ℝ (SE3.hat 0))).comp 0 h3

theorem SE3.exp_act_apply (a : Vec6 ℝ) (P : Vec3 ℝ) (k : Fin 3) :
    (SE3.exp a).act P k =
      NormedSpace.exp ℝ (SE3.hat a) k.castSucc 0 * P 0
        + NormedSpace.exp ℝ (SE3.hat a) k.castSucc 1 * P 1
        + NormedSpace.exp ℝ (SE3.hat a) k.castSucc 2 * P 2
        + NormedSpace.exp ℝ (SE3.hat a) k.castSucc 3 := by
  have e2 : (Fin.castSucc (2 : Fin 3) : Fin 4) = 2 := rfl
  simp [SE3.exp, SE3.act, SE3.ofHom, Matrix.mulVec, Matrix.dotProduct, Fin.sum_univ_three, e2]

/-- The derivative at `0` of `a ↦ Exp(a) · P` is `[I | -P^]`. -/
theorem hasFDerivAt_exp_act (P : Vec3 ℝ) :
    HasFDerivAt (fun a : Vec6 ℝ => (SE3.exp a).act P) (matMap (pointJac P)) 0 := by
  have e2 : (Fin.castSucc (2 : Fin 3) : Fin 4) = 2 := rfl
  rw [hasFDerivAt_pi']
  intro k
  have h := ((((hasFDerivAt_exp_hat_entry k.castSucc 0).mul_const (P 0)).add
    ((hasFDerivAt_exp_hat_entry k.castSucc 1).mul_const (P 1))).add
    ((hasFDerivAt_exp_hat_entry k.castSucc 2).mul_const (P 2))).add
    (hasFDerivAt_exp_hat_entry k.castSucc 3)
  refine (h.congr_fderiv ?_).congr_of_eventuallyEq ?_
  · ext v
    fin_cases k <;>
      simp [matMap_apply, pointJac, SE3.hatL, SE3.hat, Matrix.mulVec, Matrix.dotProduct,
        Fin.sum_univ_six, vec6_val_five, e2] <;>
      ring
  · exact Filter.Eventually.of_forall fun a => SE3.exp_act_apply a P k

/-- The action of a fixed transform is affine, with linear part `R`. -/
theorem hasFDerivAt_act (E : SE3 ℝ) (x : Vec3 ℝ) :
    HasFDerivAt (fun y : Vec3 ℝ => E.act y) (matMap E.R) x := by
  have h : HasFDerivAt (fun y : Vec3 ℝ => matMap E.R y + E.t) (matMap E.R) x :=
    (matMap E.R).hasFDerivAt.add_const E.t
  exact h

/-- The pinhole residual is differentiable in the camera-frame point wherever
the depth is not zero, with derivative `projJac`. -/
theorem hasFDerivAt_projResidual (fx fy cx cy : ℝ) (m : Vec2 ℝ) (c : Vec3 ℝ) (hc : c 2 ≠ 0) :
    HasFDerivAt (projResidual (pinhole fx fy cx cy) m) (matMap (projJac fx fy c)) c := by
  have h0 : HasFDerivAt (fun x : Vec3 ℝ => x 0)
      (ContinuousLinearMap.proj 0 : (Fin 3 → ℝ) →L[ℝ] ℝ) c := hasFDerivAt_apply 0 c
  have h1 : HasFDerivAt (fun x : Vec3 ℝ => x 1)
      (ContinuousLinearMap.proj 1 : (Fin 3 → ℝ) →L[ℝ] ℝ) c := hasFDerivAt_apply 1 c
  have h2 : HasFDerivAt (fun x : Vec3 ℝ => x 2)
      (ContinuousLinearMap.proj 2 : (Fin 3 → ℝ) →L[ℝ] ℝ) c := hasFDerivAt_apply 2 c
  have hinv : HasFDerivAt (fun x : Vec3 ℝ => (x 2)⁻¹) _ c :=
    (hasDerivAt_inv hc).comp_hasFDerivAt c h2
  rw [hasFDerivAt_pi']
  intro i
  fin_cases i
  · have h := (((h0.const_mul fx).add (h2.const_mul cx)).mul hinv).const_sub (m 0)
    refine (h.congr_fderiv ?_).congr_of_eventuallyEq ?_
    · ext v
      simp [matMap_apply, projJac, Matrix.mulVec, Matrix.dotProduct, Fin.sum_univ_three]
      field_simp
      ring
    · refine Filter.Eventually.of_forall fun x => ?_
      simp [projResidual, head2, pinhole, Matrix.mulVec, Matrix.dotProduct,
        Fin.sum_univ_three, div_eq_mul_inv]
  · have h := (((h1.const_mul fy).add (h2.const_mul cy)).mul hinv).const_sub (m 1)
    refine (h.congr_fderiv ?_).congr_of_eventuallyEq ?_
    · ext v
      simp [matMap_apply, projJac, Matrix.mulVec, Matrix.dotProduct, Fin.sum_univ_three]
      field_simp
      ring
    · refine Filter.Eventually.of_forall fun x => ?_
      simp [projResidual, head2, pinhole, Matrix.mulVec, Matrix.dotProduct,
        Fin.sum_univ_three, div_eq_mul_inv]

/-- Chain rule for a guarded pinhole residual: if the camera-frame point
`g d` has derivative `G` at `0` and nonzero depth there, the residual has the
Jacobian `projJac · G` at zero. -/
theorem hasJacobianAtZero_of_point {n : Nat} (fx fy cx cy : ℝ) (m : Vec2 ℝ)
    (g : (Fin n → ℝ) → Vec3 ℝ) (G : Matrix (Fin 3) (Fin n) ℝ)
    (hg : HasFDerivAt g (matMap G) 0) (hz : (g 0) 2 ≠ 0) :
    HasJacobianAtZero
      (fun d => if ((pinhole fx fy cx cy).mulVec (g d)) 2 = 0 then none
        else some (projResidual (pinhole fx fy cx cy) m (g d)))
      (projJac fx fy (g 0) * G) := by
  refine ⟨fun d => projResidual (pinhole fx fy cx cy) m (g d), ?_, ?_⟩
  · have hc : ContinuousAt (fun d => (g d) 2) 0 :=
      (continuous_apply 2).continuousAt.comp hg.continuousAt
    filter_upwards [hc.eventually_ne hz] with d hd
    rw [pinhole_mulVec_two, if_neg hd]
  · rw [matMap_mul]
    exact (hasFDerivAt_projResidual fx fy cx cy m (g 0) hz).comp 0 hg

/-- The Jacobian at zero of a guarded residual is unique. -/
theorem HasJacobianAtZero.unique {n : Nat} {f : (Fin n → ℝ) → Option (Vec2 ℝ)}
    {J J' : Matrix (Fin 2) (Fin n) ℝ} (h : HasJacobianAtZero f J)
    (h' : HasJacobianAtZero f J') : J = J' := by
  obtain ⟨r, hr, hd⟩ := h
  obtain ⟨r', hr', hd'⟩ := h'
  have he : r' =ᶠ[nhds 0] r := by
    filter_upwards [hr, hr'] with d h1 h2
    rw [h1] at h2
    exact (Option.some.inj h2).symm
  exact matMap_injective _ _ (hd.unique (hd'.congr_of_eventuallyEq he.symm))

end Calculus

section Factors

theorem SE3.exp_zero : SE3.exp 0 = SE3.identity := by
  have h0 : SE3.hat (0 : Vec6 ℝ) = 0 := SE3.hatL.map_zero
  have e2 : (Fin.castSucc (2 : Fin 3) : Fin 4) = 2 := rfl
  rw [SE3.exp, h0, NormedSpace.exp_zero, SE3.eq_iff]
  constructor
  · ext i j
    fin_cases i <;> fin_cases j <;> simp [SE3.ofHom, SE3.identity, Matrix.one_apply, e2]
  · ext i
    fin_cases i <;> simp [SE3.ofHom, SE3.identity, Matrix.one_apply, e2]

/-- True Jacobian of the binary edge's residual in the pose perturbation. -/
theorem EdgeProjection.hasJacobianAtZero_binary_pose (fx fy cx cy : ℝ) (E T : SE3 ℝ) (m : Vec2 ℝ)
    (p : Vec3 ℝ) (hz : (E.act (T.act p)) 2 ≠ 0) :
    HasJacobianAtZero
      (fun d => EdgeProjection.computeError (pinhole fx fy cx cy) E m
        (VertexPose.oplusImpl SE3.exp T d) p)
      (projJac fx fy (E.act (T.act p)) * (E.R * pointJac (T.act p))) := by
  have hg : HasFDerivAt (fun d : Vec6 ℝ => E.act ((SE3.exp d).act (T.act p)))
      (matMap (E.R * pointJac (T.act p))) 0 := by
    rw [matMap_mul]
    exact (hasFDerivAt_act E _).comp 0 (hasFDerivAt_exp_act (T.act p))
  have h0 : E.act ((SE3.exp 0).act (T.act p)) = E.act (T.act p) := by
    rw [SE3.exp_zero, SE3.identity_act]
  have h := hasJacobianAtZero_of_point fx fy cx cy m _ _ hg (by rw [h0]; exact hz)
  rw [h0] at h
  simpa only [EdgeProjection.computeError_eq_binary, VertexPose.oplusImpl_eq_mul, SE3.act_mul] using h

/-- True Jacobian of the binary edge's residual in the landmark perturbation. -/
theorem EdgeProjection.hasJacobianAtZero_landmark (fx fy cx cy : ℝ) (E T : SE3 ℝ) (m : Vec2 ℝ)
    (p : Vec3 ℝ) (hz : (E.act (T.act p)) 2 ≠ 0) :
    HasJacobianAtZero
      (fun d => EdgeProjection.computeError (pinhole fx fy cx cy) E m T
        (VertexXYZ.oplusImpl p d))
      (projJac fx fy (E.act (T.act p)) * (E.R * T.R)) := by
  have hid : HasFDerivAt (fun d : Vec3 ℝ => p + d) (ContinuousLinearMap.id ℝ (Vec3 ℝ)) 0 :=
    (hasFDerivAt_id (0 : Vec3 ℝ)).const_add p
  have hg : HasFDerivAt (fun d : Vec3 ℝ => E.act (T.act (p + d)))
      (matMap (E.R * T.R)) 0 := by
    rw [matMap_mul]
    have h1 := (hasFDerivAt_act T (p + 0)).comp 0 hid
    exact (hasFDerivAt_act E _).comp 0 h1
  have h0 : E.act (T.act (p + 0)) = E.act (T.act p) := by rw [add_zero]
  have h := hasJacobianAtZero_of_point fx fy cx cy m _ _ hg (by rw [h0]; exact hz)
  rw [h0] at h
  simpa only [EdgeProjection.computeError_eq_binary, VertexXYZ.oplusImpl_eq_add] using h

/-- True Jacobian of the unary edge's residual in the pose perturbation. -/
theorem EdgeProjectionPoseOnly.hasJacobianAtZero_unary_pose (fx fy cx cy : ℝ) (T : SE3 ℝ)
    (m : Vec2 ℝ) (p : Vec3 ℝ) (hz : (T.act p) 2 ≠ 0) :
    HasJacobianAtZero
      (fun d => EdgeProjectionPoseOnly.computeError p (pinhole fx fy cx cy) m
        (VertexPose.oplusImpl SE3.exp T d))
      (projJac fx fy (T.act p) * pointJac (T.act p)) := by
  have hg := hasFDerivAt_exp_act (T.act p)
  have h0 : (SE3.exp 0).act (T.act p) = T.act p := by
    rw [SE3.exp_zero, SE3.identity_act]
  have h := hasJacobianAtZero_of_point fx fy cx cy m _ _ hg (by rw [h0]; exact hz)
  rw [h0] at h
  simpa only [EdgeProjectionPoseOnly.computeError_eq_unary, VertexPose.oplusImpl_eq_mul, SE3.act_mul]
    using h

/-- The closed form of both `linearizeOplus` with `Zinv = 1 / Z` is
`projJac · [I | -P^]` at the camera-frame point. -/
theorem commaInit_two_six {F : Type} [Zero F] (c0 c1 c2 c3 c4 c5 c6 c7 c8 c9 c10 c11 : F) :
    commaInit 2 6 [c0, c1, c2, c3, c4, c5, c6, c7, c8, c9, c10, c11]
      = !![c0, c1, c2, c3, c4, c5; c6, c7, c8, c9, c10, c11] := by
  ext i j
  fin_cases i <;> fin_cases j <;> rfl

theorem closedForm_eq (fx fy X Y Z : ℝ) (c : Vec3 ℝ) (hX : c 0 = X) (hY : c 1 = Y)
    (hZ : c 2 = Z) (hz : Z ≠ 0) :
    commaInit 2 6 [-fx * (1 / Z), 0, fx * X * (1 / Z * (1 / Z)), fx * X * Y * (1 / Z * (1 / Z)),
        -fx - fx * X * X * (1 / Z * (1 / Z)), fx * Y * (1 / Z), 0, -fy * (1 / Z),
        fy * Y * (1 / Z * (1 / Z)), fy + fy * Y * Y * (1 / Z * (1 / Z)),
        -fy * X * Y * (1 / Z * (1 / Z)), -fy * X * (1 / Z)]
      = projJac fx fy c * pointJac c := by
  subst hX hY hZ
  rw [commaInit_two_six]
  ext i j
  fin_cases i <;> fin_cases j <;>
    simp [projJac, pointJac, Matrix.mul_apply, Fin.sum_univ_three, vec6_val_five,
      Matrix.vecHead, Matrix.vecTail] <;>
    first
    | (field_simp; done)
    | (field_simp; ring1)
    | (field_simp; left; ring1)

end Factors

theorem SE3.act_apply {F : Type} [Field F] (T : SE3 F) (p : Vec3 F) (i : Fin 3) :
    T.act p i = T.R i 0 * p 0 + T.R i 1 * p 1 + T.R i 2 * p 2 + T.t i := by
  simp [SE3.act, Matrix.mulVec, Matrix.dotProduct, Fin.sum_univ_three]

theorem block23_closed {F : Type} [Field F] (fx fy : F) (c : Vec3 F) :
    block23 (projJac fx fy c * pointJac c) = projJac fx fy c := by
  ext i j
  fin_cases i <;> fin_cases j <;>
    simp [block23, projJac, pointJac, Matrix.mul_apply, Fin.sum_univ_three,
      Matrix.vecHead, Matrix.vecTail]

/-! ## The exponential is a rotation -/

section Rotation

theorem SE3.blockL_mul_hat (M : Matrix (Fin 4) (Fin 4) ℝ) (a : Vec6 ℝ) :
    SE3.blockL (M * SE3.hat a) = SE3.blockL M * SE3.hatRot a := by
  have e2 : (Fin.castSucc (2 : Fin 3) : Fin 4) = 2 := rfl
  ext i j
  fin_cases j <;>
    simp [SE3.blockL, SE3.hat, SE3.hatRot, Matrix.mul_apply, Fin.sum_univ_four,
      Fin.sum_univ_three, e2, Matrix.vecHead, Matrix.vecTail]

theorem SE3.blockL_hat_pow (a : Vec6 ℝ) (n : ℕ) :
    SE3.blockL (SE3.hat a ^ n) = SE3.hatRot a ^ n := by
  induction n with
  | zero =>
    have e2 : (Fin.castSucc (2 : Fin 3) : Fin 4) = 2 := rfl
    ext i j
    fin_cases i <;> fin_cases j <;> simp [SE3.blockL, Matrix.one_apply, e2]
  | succ n ih => rw [pow_succ, pow_succ, SE3.blockL_mul_hat, ih]

/-- The rotation block of `Exp(a)` is the exponential of the skew matrix of
the rotation part of `a`. -/
theorem SE3.exp_R (a : Vec6 ℝ) : (SE3.exp a).R = NormedSpace.exp ℝ (SE3.hatRot a) := by
  letI : NormedRing (Matrix (Fin 4) (Fin 4) ℝ) := Matrix.linftyOpNormedRing
  letI : NormedAlgebra ℝ (Matrix (Fin 4) (Fin 4) ℝ) := Matrix.linftyOpNormedAlgebra
  letI : NormedRing (Matrix (Fin 3) (Fin 3) ℝ) := Matrix.linftyOpNormedRing
  letI : NormedAlgebra ℝ (Matrix (Fin 3) (Fin 3) ℝ) := Matrix.linftyOpNormedAlgebra
  let L : Matrix (Fin 4) (Fin 4) ℝ →L[ℝ] Matrix (Fin 3) (Fin 3) ℝ :=
    LinearMap.toContinuousLinearMap SE3.blockL
  have h4' : HasSum (fun n : ℕ => (n.factorial : ℝ)⁻¹ • SE3.hat a ^ n)
      (NormedSpace.exp ℝ (SE3.hat a)) := NormedSpace.exp_series_hasSum_exp' (SE3.hat a)
  have h3 : HasSum (fun n : ℕ => (n.factorial : ℝ)⁻¹ • SE3.hatRot a ^ n)
      (NormedSpace.exp ℝ (SE3.hatRot a)) := NormedSpace.exp_series_hasSum_exp' (SE3.hatRot a)
  have h4 := L.hasSum h4'
  have hL : ∀ n : ℕ, L ((n.factorial : ℝ)⁻¹ • SE3.hat a ^ n)
      = (n.factorial : ℝ)⁻¹ • SE3.hatRot a ^ n := by
    intro n
    rw [L.map_smul]
    congr 1
    exact SE3.blockL_hat_pow a n
  simp only [hL] at h4
  exact h4.unique h3

theorem SE3.hatRot_transpose {F : Type} [Field F] (a : Vec6 F) :
    (SE3.hatRot a).transpose = -SE3.hatRot a := by
  ext i j
  fin_cases i <;> fin_cases j <;> simp [SE3.hatRot]

/-- The exponential of a skew matrix is orthogonal. -/
theorem exp_skew_orthogonal (A : Mat33 ℝ) (hA : A.transpose = -A) :
    (NormedSpace.exp ℝ A).transpose * NormedSpace.exp ℝ A = 1 := by
  rw [← Matrix.exp_transpose, hA,
    ← Matrix.exp_add_of_commute ℝ (-A) A ((Commute.refl A).neg_left), neg_add_cancel,
    NormedSpace.exp_zero]

/-- The exponential of a skew matrix is a rotation. -/
theorem exp_skew_isRotation (A : Mat33 ℝ) (hA : A.transpose = -A) :
    SE3.IsRotation (NormedSpace.exp ℝ A) := by
  refine ⟨exp_skew_orthogonal A hA, ?_⟩
  have hh : ((1 / 2 : ℝ) • A).transpose = -((1 / 2 : ℝ) • A) := by
    rw [Matrix.transpose_smul, hA, smul_neg]
  have horth := exp_skew_orthogonal _ hh
  have hsplit : NormedSpace.exp ℝ A
      = NormedSpace.exp ℝ ((1 / 2 : ℝ) • A) * NormedSpace.exp ℝ ((1 / 2 : ℝ) • A) := by
    rw [← Matrix.exp_add_of_commute ℝ _ _ (Commute.refl _), ← add_smul]
    norm_num
  have hdet := congrArg Matrix.det horth
  rw [Matrix.det_mul, Matrix.det_transpose, Matrix.det_one] at hdet
  rw [hsplit, Matrix.det_mul, hdet]

theorem SE3.isRotation_one {F : Type} [Field F] : SE3.IsRotation (1 : Mat33 F) := by
  simp [SE3.IsRotation]

theorem SE3.isRotation_mul {F : Type} [Field F] (M N : Mat33 F) (hM : SE3.IsRotation M)
    (hN : SE3.IsRotation N) : SE3.IsRotation (M * N) := by
  obtain ⟨hM1, hM2⟩ := hM
  obtain ⟨hN1, hN2⟩ := hN
  refine ⟨?_, by rw [Matrix.det_mul, hM2, hN2, one_mul]⟩
  rw [Matrix.transpose_mul, Matrix.mul_assoc, ← Matrix.mul_assoc M.transpose, hM1,
    Matrix.one_mul, hN1]

/-- The rotation block of `Exp(a)` is a rotation, whatever the size of `a`. -/
theorem SE3.exp_isRotation (a : Vec6 ℝ) : SE3.IsRotation (SE3.exp a).R := by
  rw [SE3.exp_R]
  exact exp_skew_isRotation _ (SE3.hatRot_transpose a)

/-- For a pure translation the exponential series stops after two terms:
`Exp(u, 0)` is the translation by `u`. -/
theorem SE3.exp_translation (u0 u1 u2 : ℝ) :
    SE3.exp ![u0, u1, u2, 0, 0, 0] = ⟨1, ![u0, u1, u2]⟩ := by
  have e2 : (Fin.castSucc (2 : Fin 3) : Fin 4) = 2 := rfl
  have hsq : SE3.hat ![u0, u1, u2, 0, 0, 0] * SE3.hat ![u0, u1, u2, 0, 0, 0] = 0 := by
    ext i j
    fin_cases i <;> fin_cases j <;>
      simp [SE3.hat, Matrix.mul_apply, Fin.sum_univ_four, vec6_val_five, Matrix.vecHead,
        Matrix.vecTail]
  have hpow : ∀ n : ℕ, n ∉ Finset.range 2 →
      ((n.factorial : ℝ)⁻¹) • SE3.hat ![u0, u1, u2, 0, 0, 0] ^ n = 0 := by
    intro n hn
    have h2 : 2 ≤ n := by simpa using hn
    obtain ⟨k, rfl⟩ := Nat.exists_eq_add_of_le h2
    rw [pow_add, pow_two, hsq, zero_mul, smul_zero]
  have hexp : NormedSpace.exp ℝ (SE3.hat ![u0, u1, u2, 0, 0, 0])
      = 1 + SE3.hat ![u0, u1, u2, 0, 0, 0] := by
    rw [NormedSpace.exp_eq_tsum]
    dsimp only
    rw [tsum_eq_sum hpow]
    simp [Finset.sum_range_succ]
  rw [SE3.exp, hexp, SE3.eq_iff]
  constructor
  · ext i j
    fin_cases i <;> fin_cases j <;>
      simp [SE3.ofHom, SE3.hat, Matrix.one_apply, e2, Matrix.vecHead, Matrix.vecTail,
        vec6_val_five]
  · ext i
    fin_cases i <;>
      simp [SE3.ofHom, SE3.hat, Matrix.one_apply, e2, Matrix.vecHead, Matrix.vecTail,
        vec6_val_five]

end Rotation

/-! ## The closed form written out, and the inverse of the exponential -/

/-- The closed form of `linearizeOplusWith eps`, with the quotient written
out. -/
theorem EdgeProjectionPoseOnly.linearizeOplusWith_eq {F : Type} [Field F] [DecidableEq F]
    (eps : F) (pos3d : Vec3 F) (K : Mat33 F) (T : SE3 F) :
    EdgeProjectionPoseOnly.linearizeOplusWith eps pos3d K T =
      if (T.act pos3d) 2 + eps = 0 then none else
        some !![-K 0 0 * (1 / ((T.act pos3d) 2 + eps)), 0,
            K 0 0 * (T.act pos3d) 0 * (1 / ((T.act pos3d) 2 + eps)) ^ 2,
            K 0 0 * (T.act pos3d) 0 * (T.act pos3d) 1 * (1 / ((T.act pos3d) 2 + eps)) ^ 2,
            -K 0 0 - K 0 0 * (T.act pos3d) 0 ^ 2 * (1 / ((T.act pos3d) 2 + eps)) ^ 2,
            K 0 0 * (T.act pos3d) 1 * (1 / ((T.act pos3d) 2 + eps));
           0, -K 1 1 * (1 / ((T.act pos3d) 2 + eps)),
            K 1 1 * (T.act pos3d) 1 * (1 / ((T.act pos3d) 2 + eps)) ^ 2,
            K 1 1 + K 1 1 * (T.act pos3d) 1 ^ 2 * (1 / ((T.act pos3d) 2 + eps)) ^ 2,
            -K 1 1 * (T.act pos3d) 0 * (T.act pos3d) 1 * (1 / ((T.act pos3d) 2 + eps)) ^ 2,
            -K 1 1 * (T.act pos3d) 0 * (1 / ((T.act pos3d) 2 + eps))] := by
  simp only [EdgeProjectionPoseOnly.linearizeOplusWith, fdiv]
  split_ifs with h
  · rfl
  · simp only [Option.map_some', commaInit_two_six, pow_two, mul_assoc]

/-- Every finite binary64 number is smaller than `2 ^ 1024` in absolute value. -/
theorem IsDouble.abs_lt_two_pow {x : ℚ} (h : IsDouble x) : |x| < 2 ^ 1024 := by
  obtain ⟨m, a, b, hm, ha, -, rfl⟩ := h
  have hm' : |(m : ℚ)| < 2 ^ 53 := by exact_mod_cast hm
  have h2a : (2 : ℚ) ^ a ≤ 2 ^ 971 := pow_le_pow_right₀ (by norm_num) ha
  have h2b : (1 : ℚ) ≤ 2 ^ b := one_le_pow₀ (by norm_num)
  have hpos : (0 : ℚ) < 2 ^ b := by positivity
  rw [abs_div, abs_mul, abs_of_pos hpos, abs_of_pos (by positivity : (0 : ℚ) < 2 ^ a),
    div_lt_iff₀ hpos]
  calc |(m : ℚ)| * 2 ^ a ≤ |(m : ℚ)| * 2 ^ 971 :=
        mul_le_mul_of_nonneg_left h2a (abs_nonneg _)
    _ < 2 ^ 53 * 2 ^ 971 := by
        apply mul_lt_mul_of_pos_right hm'
        positivity
    _ = 2 ^ 1024 * 1 := by norm_num
    _ ≤ 2 ^ 1024 * 2 ^ b := by
        apply mul_le_mul_of_nonneg_left h2b
        positivity

section Inverse

/-- The bottom row of any positive power of `hat a` is zero. -/
theorem SE3.hat_pow_bottom (a : Vec6 ℝ) (n : ℕ) (j : Fin 4) :
    (SE3.hat a ^ (n + 1)) 3 j = 0 := by
  rw [pow_succ', Matrix.mul_apply]
  simp [SE3.hat, Fin.sum_univ_four, Matrix.vecHead, Matrix.vecTail]

/-- The bottom row of `exp (hat a)` is `(0, 0, 0, 1)`. -/
theorem SE3.exp_hat_bottom (a : Vec6 ℝ) (j : Fin 4) :
    NormedSpace.exp ℝ (SE3.hat a) 3 j = (1 : Matrix (Fin 4) (Fin 4) ℝ) 3 j := by
  letI : NormedRing (Matrix (Fin 4) (Fin 4) ℝ) := Matrix.linftyOpNormedRing
  letI : NormedAlgebra ℝ (Matrix (Fin 4) (Fin 4) ℝ) := Matrix.linftyOpNormedAlgebra
  let L : Matrix (Fin 4) (Fin 4) ℝ →L[ℝ] ℝ :=
    LinearMap.toContinuousLinearMap (Matrix.entryLinearMap ℝ ℝ 3 j)
  have h4 : HasSum (fun n : ℕ => (n.factorial : ℝ)⁻¹ • SE3.hat a ^ n)
      (NormedSpace.exp ℝ (SE3.hat a)) := NormedSpace.exp_series_hasSum_exp' (SE3.hat a)
  have hs := L.hasSum h4
  have h0 : ∀ n : ℕ, n ≠ 0 → L ((n.factorial : ℝ)⁻¹ • SE3.hat a ^ n) = 0 := by
    intro n hn
    obtain ⟨k, rfl⟩ := Nat.exists_eq_succ_of_ne_zero hn
    have hk := SE3.hat_pow_bottom a k j
    simp only [L, LinearMap.coe_toContinuousLinearMap', Matrix.entryLinearMap_apply,
      Matrix.smul_apply, smul_eq_mul]
    rw [hk, mul_zero]
  have hs' := hasSum_single 0 (fun n hn => h0 n hn)
  have huniq := hs.unique hs'
  simpa [L] using huniq

/-- On matrices whose bottom row is `(0, 0, 0, 1)`, reading off a transform
turns the matrix product into the composition of transforms. -/
theorem SE3.ofHom_mul (M N : Matrix (Fin 4) (Fin 4) ℝ)
    (hN : ∀ j, N 3 j = (1 : Matrix (Fin 4) (Fin 4) ℝ) 3 j) :
    SE3.ofHom (M * N) = (SE3.ofHom M).mul (SE3.ofHom N) := by
  have e2 : (Fin.castSucc (2 : Fin 3) : Fin 4) = 2 := rfl
  have h30 : N 3 0 = 0 := by rw [hN]; simp [Matrix.one_apply]
  have h31 : N 3 1 = 0 := by rw [hN]; simp [Matrix.one_apply]
  have h32 : N 3 2 = 0 := by rw [hN]; simp [Matrix.one_apply]
  have h33 : N 3 3 = 1 := by rw [hN]; simp [Matrix.one_apply]
  rw [SE3.eq_iff]
  constructor
  · ext i j
    fin_cases j <;>
      simp [SE3.ofHom, SE3.mul, Matrix.mul_apply, Fin.sum_univ_four, Fin.sum_univ_three, e2,
        h30, h31, h32]
  · ext i
    simp [SE3.ofHom, SE3.mul, Matrix.mul_apply, Matrix.mulVec, Matrix.dotProduct,
      Fin.sum_univ_four, Fin.sum_univ_three, e2, h33]

/-- The exponential of `-a` undoes the exponential of `a`. -/
theorem SE3.exp_neg_mul (a : Vec6 ℝ) : (SE3.exp (-a)).mul (SE3.exp a) = SE3.identity := by
  have hneg : SE3.hat (-a) = -SE3.hat a := SE3.hatL.map_neg a
  have h1 : NormedSpace.exp ℝ (-SE3.hat a) * NormedSpace.exp ℝ (SE3.hat a) = 1 := by
    rw [← Matrix.exp_add_of_commute ℝ _ _ ((Commute.refl (SE3.hat a)).neg_left),
      neg_add_cancel, NormedSpace.exp_zero]
  have h0 : SE3.hat (0 : Vec6 ℝ) = 0 := SE3.hatL.map_zero
  have e1 : NormedSpace.exp ℝ (SE3.hat (0 : Vec6 ℝ)) = 1 := by
    rw [h0, NormedSpace.exp_zero]
  rw [SE3.exp, SE3.exp, hneg, ← SE3.ofHom_mul _ _ (SE3.exp_hat_bottom a), h1, ← e1]
  exact SE3.exp_zero

end Inverse

/-! ## The claims -/

/-- C1. For every pose `T`, point `pos3d` with nonzero camera-frame depth,
measurement `m` and pinhole intrinsics, the `2 × 6` matrix of
`EdgeProjectionPoseOnly::linearizeOplus`, read with `Zinv = 1 / Z`
(`eps = 0`), is the Jacobian at `δ = 0` of the residual of `computeError` at
the pose `Exp(δ) · T` that `VertexPose::oplusImpl` produces. -/
theorem poseOnly_jacobian_is_derivative (T : SE3 ℝ) (pos3d : Vec3 ℝ) (m : Vec2 ℝ)
    (fx fy cx cy : ℝ) (hZ : (T.act pos3d) 2 ≠ 0) :
    ∃ J, EdgeProjectionPoseOnly.linearizeOplusWith 0 pos3d (pinhole fx fy cx cy) T = some J ∧
      HasJacobianAtZero
        (fun d => EdgeProjectionPoseOnly.computeError pos3d (pinhole fx fy cx cy) m
          (VertexPose.oplusImpl SE3.exp T d)) J := by
  have hfx : (pinhole fx fy cx cy) 0 0 = fx := by simp [pinhole]
  have hfy : (pinhole fx fy cx cy) 1 1 = fy := by simp [pinhole]
  refine ⟨_, ?_, EdgeProjectionPoseOnly.hasJacobianAtZero_unary_pose fx fy cx cy T m pos3d hZ⟩
  simp only [EdgeProjectionPoseOnly.linearizeOplusWith, add_zero, fdiv, if_neg hZ,
    Option.map_some', hfx, hfy]
  rw [closedForm_eq fx fy _ _ _ (T.act pos3d) rfl rfl rfl hZ]

/-- C1, at a concrete input: the pose translates by `(0, 0, 2)`, the point is
`(1, 2, 2)`, the camera has `fx = 2`, `fy = 3`, `cx = 1`, `cy = 1`. -/
theorem poseOnly_jacobian_is_derivative_witness :
    ((⟨1, ![0, 0, 2]⟩ : SE3 ℝ).act ![1, 2, 2]) 2 ≠ 0 ∧
    ∃ J, EdgeProjectionPoseOnly.linearizeOplusWith 0 ![1, 2, 2] (pinhole 2 3 1 1)
        (⟨1, ![0, 0, 2]⟩ : SE3 ℝ) = some J ∧
      HasJacobianAtZero
        (fun d => EdgeProjectionPoseOnly.computeError ![1, 2, 2] (pinhole 2 3 1 1) ![0, 0]
          (VertexPose.oplusImpl SE3.exp (⟨1, ![0, 0, 2]⟩ : SE3 ℝ) d)) J :=
  ⟨by simp [SE3.act_apply, Matrix.one_apply],
    poseOnly_jacobian_is_derivative _ _ _ 2 3 1 1 (by simp [SE3.act_apply, Matrix.one_apply])⟩

/-- C2, at the failing input: identity pose, landmark `(0, 0, 1)`, a camera
translated by `(1, 0, 0)` (a stereo baseline), `fx = fy = 1`, `cx = cy = 0`.
The pose block `_jacobianOplusXi` of `EdgeProjection::linearizeOplus` (read with
`Zinv = 1 / Z`) has the entry `-2` in row `0`, column `4`, and is not the
Jacobian at `δ = 0` of the residual at the pose `Exp(δ) · T`. -/
theorem pose_jacobian_ignores_extrinsics :
    ∃ Jp, (EdgeProjection.linearizeOplusWith 0 (pinhole 1 1 0 0) (⟨1, ![1, 0, 0]⟩ : SE3 ℝ)
        SE3.identity ![0, 0, 1]).map Prod.fst = some Jp ∧ Jp 0 4 = -2 ∧
      ¬ HasJacobianAtZero
        (fun d => EdgeProjection.computeError (pinhole 1 1 0 0) (⟨1, ![1, 0, 0]⟩ : SE3 ℝ)
          ![0, 0] (VertexPose.oplusImpl SE3.exp SE3.identity d) ![0, 0, 1]) Jp := by
  have hc : (⟨1, ![1, 0, 0]⟩ : SE3 ℝ).act ((SE3.identity : SE3 ℝ).act ![0, 0, 1]) = ![1, 0, 1] := by
    rw [SE3.identity_act]
    ext i
    fin_cases i <;> simp [SE3.act_apply, Matrix.one_apply]
  have hz : ((⟨1, ![1, 0, 0]⟩ : SE3 ℝ).act ((SE3.identity : SE3 ℝ).act ![0, 0, 1])) 2 ≠ 0 := by
    rw [hc]
    simp
  have hfx : (pinhole (1 : ℝ) 1 0 0) 0 0 = 1 := by simp [pinhole]
  have hfy : (pinhole (1 : ℝ) 1 0 0) 1 1 = 1 := by simp [pinhole]
  have htrue := EdgeProjection.hasJacobianAtZero_binary_pose 1 1 0 0 (⟨1, ![1, 0, 0]⟩ : SE3 ℝ)
    SE3.identity ![0, 0] ![0, 0, 1] hz
  refine ⟨projJac (1 : ℝ) 1 ![1, 0, 1] * pointJac (![1, 0, 1] : Vec3 ℝ), ?_, ?_, ?_⟩
  · simp only [EdgeProjection.linearizeOplusWith, add_zero, fdiv, SE3.act_mul, if_neg hz,
      Option.map_some', hfx, hfy]
    rw [closedForm_eq 1 1 _ _ _ _ rfl rfl rfl hz, hc]
  · simp [projJac, pointJac, Matrix.mul_apply, Fin.sum_univ_three]
    norm_num
  · intro h
    have heq := congrFun (congrFun (h.unique htrue) 0) 4
    rw [hc, SE3.identity_act] at heq
    simp [projJac, pointJac, Matrix.mul_apply, Fin.sum_univ_three, Matrix.vecHead,
      Matrix.vecTail] at heq

/-- C3. For every pose `T`, extrinsics `E`, landmark `p` with nonzero
camera-frame depth at `E · (T · p)` and pinhole intrinsics, the `2 × 3` block
`_jacobianOplusXj` of `EdgeProjection::linearizeOplus`, read with
`Zinv = 1 / Z`, is the Jacobian at `d = 0` of the residual of `computeError`
at the landmark `p + d` that `VertexXYZ::oplusImpl` produces. -/
theorem landmark_jacobian_is_derivative (T E : SE3 ℝ) (p : Vec3 ℝ) (m : Vec2 ℝ)
    (fx fy cx cy : ℝ) (hZ : (E.act (T.act p)) 2 ≠ 0) :
    ∃ Jp Jl, EdgeProjection.linearizeOplusWith 0 (pinhole fx fy cx cy) E T p = some (Jp, Jl) ∧
      HasJacobianAtZero
        (fun d => EdgeProjection.computeError (pinhole fx fy cx cy) E m T
          (VertexXYZ.oplusImpl p d)) Jl := by
  have hfx : (pinhole fx fy cx cy) 0 0 = fx := by simp [pinhole]
  have hfy : (pinhole fx fy cx cy) 1 1 = fy := by simp [pinhole]
  refine ⟨projJac fx fy (E.act (T.act p)) * pointJac (E.act (T.act p)), _, ?_,
    EdgeProjection.hasJacobianAtZero_landmark fx fy cx cy E T m p hZ⟩
  simp only [EdgeProjection.linearizeOplusWith, add_zero, fdiv, SE3.act_mul, if_neg hZ,
    Option.map_some', hfx, hfy, SE3.rotationMatrix]
  rw [closedForm_eq fx fy _ _ _ (E.act (T.act p)) rfl rfl rfl hZ, block23_closed,
    Matrix.mul_assoc]

/-- C3, at a concrete input with a rotated pose and a translated camera. -/
theorem landmark_jacobian_is_derivative_witness :
    ((⟨1, ![1, 0, 0]⟩ : SE3 ℝ).act ((⟨!![0, -1, 0; 1, 0, 0; 0, 0, 1], ![0, 0, 1]⟩ : SE3 ℝ).act
      ![1, 2, 3])) 2 ≠ 0 ∧
    ∃ Jp Jl, EdgeProjection.linearizeOplusWith 0 (pinhole 2 3 1 1) (⟨1, ![1, 0, 0]⟩ : SE3 ℝ)
        (⟨!![0, -1, 0; 1, 0, 0; 0, 0, 1], ![0, 0, 1]⟩ : SE3 ℝ) ![1, 2, 3] = some (Jp, Jl) ∧
      HasJacobianAtZero
        (fun d => EdgeProjection.computeError (pinhole 2 3 1 1) (⟨1, ![1, 0, 0]⟩ : SE3 ℝ)
          ![0, 0] (⟨!![0, -1, 0; 1, 0, 0; 0, 0, 1], ![0, 0, 1]⟩ : SE3 ℝ)
          (VertexXYZ.oplusImpl ![1, 2, 3] d)) Jl :=
  ⟨by simp [SE3.act_apply, Matrix.one_apply, Matrix.vecHead, Matrix.vecTail]; norm_num,
    landmark_jacobian_is_derivative _ _ _ _ 2 3 1 1
      (by simp [SE3.act_apply, Matrix.one_apply, Matrix.vecHead, Matrix.vecTail]; norm_num)⟩


/-- C4. `VertexPose::oplusImpl` composes on the left: for every exponential
`Exp` (in particular `SE3.exp`), estimate `T` and update `d`, taken in the
order of the caller's array, the new estimate is `Exp(d) · T`; hence two
successive updates `d1` then `d2` leave `Exp(d2) · Exp(d1) · T`.  The side
matters: for `SE3.exp` there are `T` and `d` with `Exp(d) · T ≠ T · Exp(d)`. -/
theorem oplusImpl_left_composition {F : Type} [Field F] (Exp : Vec6 F → SE3 F) (T : SE3 F)
    (d1 d2 : Fin 6 → F) :
    VertexPose.oplusImpl Exp T d1
        = (Exp ![d1 0, d1 1, d1 2, d1 3, d1 4, d1 5]).mul T ∧
      VertexPose.oplusImpl Exp T d1 = (Exp d1).mul T ∧
      VertexPose.oplusImpl Exp (VertexPose.oplusImpl Exp T d1) d2
        = ((Exp d2).mul (Exp d1)).mul T ∧
      ∃ (T' : SE3 ℝ) (d : Fin 6 → ℝ),
        VertexPose.oplusImpl SE3.exp T' d ≠ T'.mul (SE3.exp d) := by
  refine ⟨rfl, VertexPose.oplusImpl_eq_mul Exp T d1, ?_, ?_⟩
  · rw [VertexPose.oplusImpl_eq_mul, VertexPose.oplusImpl_eq_mul, SE3.mul_assoc]
  · refine ⟨⟨!![0, -1, 0; 1, 0, 0; 0, 0, 1], 0⟩, ![1, 0, 0, 0, 0, 0], ?_⟩
    rw [VertexPose.oplusImpl_eq_mul, SE3.exp_translation]
    intro h
    have h1 := congrFun (congrArg SE3.t h) 0
    simp [SE3.mul, Matrix.mulVec, Matrix.dotProduct, Fin.sum_univ_three] at h1

/-- C5. Manifold closure of `VertexPose`: "the rotation block `R` of the
estimate satisfies `Rᵀ R = I` and `det R = 1`" holds after `setToOriginImpl`,
is preserved by `oplusImpl` for every update of any size, and so holds after
a reset followed by any sequence of resets and updates, from any prior
estimate. -/
theorem pose_manifold_closure :
    SE3.IsRotation (VertexPose.setToOriginImpl : SE3 ℝ).R ∧
    (∀ (T : SE3 ℝ) (d : Fin 6 → ℝ), SE3.IsRotation T.R →
      SE3.IsRotation (VertexPose.oplusImpl SE3.exp T d).R) ∧
    (∀ (T0 : SE3 ℝ) (ops : List (VertexPose.Op ℝ)),
      SE3.IsRotation (VertexPose.run SE3.exp T0 (VertexPose.Op.setToOrigin :: ops)).R) := by
  have hreset : SE3.IsRotation (VertexPose.setToOriginImpl : SE3 ℝ).R := SE3.isRotation_one
  have hstep : ∀ (T : SE3 ℝ) (d : Fin 6 → ℝ), SE3.IsRotation T.R →
      SE3.IsRotation (VertexPose.oplusImpl SE3.exp T d).R := by
    intro T d hT
    rw [VertexPose.oplusImpl_eq_mul]
    exact SE3.isRotation_mul _ _ (SE3.exp_isRotation d) hT
  have hrun : ∀ (ops : List (VertexPose.Op ℝ)) (T : SE3 ℝ), SE3.IsRotation T.R →
      SE3.IsRotation (VertexPose.run SE3.exp T ops).R := by
    intro ops
    induction ops with
    | nil => intro T hT; exact hT
    | cons op ops ih =>
      intro T hT
      cases op with
      | setToOrigin => exact ih _ hreset
      | oplus u => exact ih _ (hstep T u hT)
  exact ⟨hreset, hstep, fun T0 ops => hrun ops _ hreset⟩

/-- C6. `EdgeProjectionPoseOnly::computeError`: when the third component of
`h = K · (T · point3d)` is not zero, the residual is
`measurement - (h 0 / h 2, h 1 / h 2)`. -/
theorem poseOnly_computeError_formula {F : Type} [Field F] [DecidableEq F] (T : SE3 F)
    (pos3d : Vec3 F) (K : Mat33 F) (m : Vec2 F)
    (h2 : (K.mulVec (T.act pos3d)) 2 ≠ 0) :
    EdgeProjectionPoseOnly.computeError pos3d K m T =
      some ![m 0 - (K.mulVec (T.act pos3d)) 0 / (K.mulVec (T.act pos3d)) 2,
             m 1 - (K.mulVec (T.act pos3d)) 1 / (K.mulVec (T.act pos3d)) 2] := by
  rw [EdgeProjectionPoseOnly.computeError_eq_unary, if_neg h2]
  congr 1
  ext i
  fin_cases i <;> simp [projResidual, head2]

/-- C6, at a concrete input over the rationals: residual `(-3/2, -5/2)`. -/
theorem poseOnly_computeError_formula_witness :
    ((pinhole (2 : ℚ) 3 1 1).mulVec ((⟨1, ![0, 0, 2]⟩ : SE3 ℚ).act ![1, 2, 2])) 2 ≠ 0 ∧
    EdgeProjectionPoseOnly.computeError ![1, 2, 2] (pinhole (2 : ℚ) 3 1 1) ![0, 0]
        (⟨1, ![0, 0, 2]⟩ : SE3 ℚ) = some ![-3 / 2, -5 / 2] := by
  have h2 : ((pinhole (2 : ℚ) 3 1 1).mulVec ((⟨1, ![0, 0, 2]⟩ : SE3 ℚ).act ![1, 2, 2])) 2 ≠ 0 := by
    simp [pinhole_mulVec_two, SE3.act_apply, Matrix.one_apply]
  refine ⟨h2, ?_⟩
  rw [poseOnly_computeError_formula _ _ _ _ h2]
  congr 1
  ext i
  fin_cases i <;>
    simp [pinhole, Matrix.mulVec, Matrix.dotProduct, Fin.sum_univ_three, SE3.act_apply,
      Matrix.one_apply] <;>
    norm_num

/-- C7. `EdgeProjection::computeError`: when the third component of
`h = K · (E · (T · p))` is not zero, the residual is
`measurement - (h 0 / h 2, h 1 / h 2)`; the extrinsics `E` act after the
pose `T`. -/
theorem reprojection_computeError_formula {F : Type} [Field F] [DecidableEq F] (T E : SE3 F)
    (p : Vec3 F) (K : Mat33 F) (m : Vec2 F)
    (h2 : (K.mulVec (E.act (T.act p))) 2 ≠ 0) :
    EdgeProjection.computeError K E m T p =
      some ![m 0 - (K.mulVec (E.act (T.act p))) 0 / (K.mulVec (E.act (T.act p))) 2,
             m 1 - (K.mulVec (E.act (T.act p))) 1 / (K.mulVec (E.act (T.act p))) 2] := by
  rw [EdgeProjection.computeError_eq_binary, if_neg h2]
  congr 1
  ext i
  fin_cases i <;> simp [projResidual, head2]

/-- C7, at a concrete input over the rationals where the order matters: the
pose is a quarter turn about the optical axis, the camera is translated by
`(1, 0, 0)`; the residual is `(0, -5/2)` (it would be `(1, -4)` with the
extrinsics applied before the pose). -/
theorem reprojection_computeError_formula_witness :
    ((pinhole (2 : ℚ) 3 1 1).mulVec ((⟨1, ![1, 0, 0]⟩ : SE3 ℚ).act
      ((⟨!![0, -1, 0; 1, 0, 0; 0, 0, 1], 0⟩ : SE3 ℚ).act ![1, 2, 2]))) 2 ≠ 0 ∧
    EdgeProjection.computeError (pinhole (2 : ℚ) 3 1 1) (⟨1, ![1, 0, 0]⟩ : SE3 ℚ) ![0, 0]
        (⟨!![0, -1, 0; 1, 0, 0; 0, 0, 1], 0⟩ : SE3 ℚ) ![1, 2, 2] = some ![0, -5 / 2] := by
  have h2 : ((pinhole (2 : ℚ) 3 1 1).mulVec ((⟨1, ![1, 0, 0]⟩ : SE3 ℚ).act
      ((⟨!![0, -1, 0; 1, 0, 0; 0, 0, 1], 0⟩ : SE3 ℚ).act ![1, 2, 2]))) 2 ≠ 0 := by
    simp [pinhole_mulVec_two, SE3.act_apply, Matrix.one_apply, Matrix.vecHead, Matrix.vecTail]
  refine ⟨h2, ?_⟩
  rw [reprojection_computeError_formula _ _ _ _ _ h2]
  congr 1
  ext i
  fin_cases i <;>
    simp [pinhole, Matrix.mulVec, Matrix.dotProduct, Fin.sum_univ_three, SE3.act_apply,
      Matrix.one_apply, Matrix.vecHead, Matrix.vecTail] <;>
    norm_num

/-- C8. `EdgeProjectionPoseOnly::linearizeOplus`: with `(X, Y, Z) = T · point3d`,
`fx = K(0, 0)`, `fy = K(1, 1)` and `Zinv = 1 / (Z + 1e-18)`, the `2 × 6`
Jacobian is, entry by entry and row by row,
`[-fx·Zinv, 0, fx·X·Zinv², fx·X·Y·Zinv², -fx - fx·X²·Zinv², fx·Y·Zinv]` and
`[0, -fy·Zinv, fy·Y·Zinv², fy + fy·Y²·Zinv², -fy·X·Y·Zinv², -fy·X·Zinv]`;
no value is returned only where `Z + 1e-18` is zero. -/
theorem poseOnly_linearizeOplus_closed_form {F : Type} [Field F] [DecidableEq F] (T : SE3 F)
    (pos3d : Vec3 F) (K : Mat33 F) :
    EdgeProjectionPoseOnly.linearizeOplus pos3d K T =
      if (T.act pos3d) 2 + 1 / 10 ^ 18 = 0 then none else
        some !![-K 0 0 * (1 / ((T.act pos3d) 2 + 1 / 10 ^ 18)), 0,
            K 0 0 * (T.act pos3d) 0 * (1 / ((T.act pos3d) 2 + 1 / 10 ^ 18)) ^ 2,
            K 0 0 * (T.act pos3d) 0 * (T.act pos3d) 1
              * (1 / ((T.act pos3d) 2 + 1 / 10 ^ 18)) ^ 2,
            -K 0 0 - K 0 0 * (T.act pos3d) 0 ^ 2 * (1 / ((T.act pos3d) 2 + 1 / 10 ^ 18)) ^ 2,
            K 0 0 * (T.act pos3d) 1 * (1 / ((T.act pos3d) 2 + 1 / 10 ^ 18));
           0, -K 1 1 * (1 / ((T.act pos3d) 2 + 1 / 10 ^ 18)),
            K 1 1 * (T.act pos3d) 1 * (1 / ((T.act pos3d) 2 + 1 / 10 ^ 18)) ^ 2,
            K 1 1 + K 1 1 * (T.act pos3d) 1 ^ 2 * (1 / ((T.act pos3d) 2 + 1 / 10 ^ 18)) ^ 2,
            -K 1 1 * (T.act pos3d) 0 * (T.act pos3d) 1
              * (1 / ((T.act pos3d) 2 + 1 / 10 ^ 18)) ^ 2,
            -K 1 1 * (T.act pos3d) 0 * (1 / ((T.act pos3d) 2 + 1 / 10 ^ 18))] := by
  rw [EdgeProjectionPoseOnly.linearizeOplus, depthEps,
    EdgeProjectionPoseOnly.linearizeOplusWith_eq]

/-- C8, at a concrete input over the rationals: the point `(1, 2, 1 - 1e-18)`
seen from the identity pose with `fx = 2`, `fy = 3`, where `Zinv = 1`. -/
theorem poseOnly_linearizeOplus_closed_form_witness :
    EdgeProjectionPoseOnly.linearizeOplus (![1, 2, 1 - 1 / 10 ^ 18] : Vec3 ℚ)
        (pinhole 2 3 0 0) SE3.identity
      = some !![-2, 0, 2, 4, -4, 4; 0, -3, 6, 15, -6, -3] := by
  have hZ : ((SE3.identity : SE3 ℚ).act ![1, 2, 1 - 1 / 10 ^ 18]) 2 + 1 / 10 ^ 18 = 1 := by
    rw [SE3.identity_act]
    simp
  rw [poseOnly_linearizeOplus_closed_form, hZ, if_neg one_ne_zero, SE3.identity_act]
  congr 1
  ext i j
  fin_cases i <;> fin_cases j <;> simp [pinhole, vec6_val_five] <;> norm_num

/-- C9. `EdgeProjection::linearizeOplus` returns a value exactly when
`Z + 1e-18` is not zero, and then `_jacobianOplusXj` is
`_jacobianOplusXi.block<2,3>(0,0) · R_E · R_T`, in that order.  The result
depends on the two transforms only through their rotations and the
camera-frame point: the translations enter only through that point. -/
theorem reprojection_chain_rule {F : Type} [Field F] [DecidableEq F] (K : Mat33 F)
    (E T : SE3 F) (p : Vec3 F) :
    ((EdgeProjection.linearizeOplus K E T p).isSome ↔ ((E.mul T).act p) 2 + 1 / 10 ^ 18 ≠ 0) ∧
    (∀ Jp Jl, EdgeProjection.linearizeOplus K E T p = some (Jp, Jl) →
      Jl = block23 Jp * E.rotationMatrix * T.rotationMatrix) ∧
    (∀ (E' T' : SE3 F) (p' : Vec3 F), E'.rotationMatrix = E.rotationMatrix →
      T'.rotationMatrix = T.rotationMatrix → (E'.mul T').act p' = (E.mul T).act p →
      EdgeProjection.linearizeOplus K E' T' p' = EdgeProjection.linearizeOplus K E T p) := by
  refine ⟨?_, ?_, ?_⟩
  · simp only [EdgeProjection.linearizeOplus, EdgeProjection.linearizeOplusWith, depthEps, fdiv]
    by_cases h : ((E.mul T).act p) 2 + 1 / 10 ^ 18 = 0
    · rw [if_pos h]
      exact ⟨fun h' => (by cases h'), fun h' => absurd h h'⟩
    · rw [if_neg h]
      exact ⟨fun _ => h, fun _ => rfl⟩
  · intro Jp Jl h
    simp only [EdgeProjection.linearizeOplus, EdgeProjection.linearizeOplusWith, depthEps, fdiv]
      at h
    split_ifs at h with hz
    · simp at h
    · simp only [Option.map_some', Option.some.injEq, Prod.mk.injEq] at h
      obtain ⟨h1, h2⟩ := h
      rw [← h2, ← h1]
  · intro E' T' p' hE hT hp
    simp only [EdgeProjection.linearizeOplus, EdgeProjection.linearizeOplusWith, hE, hT, hp]

/-- C10, the code at zero depth: for every pose and point (and extrinsics and
landmark) whose camera-frame depth is exactly `0`, with pinhole intrinsics,
both `computeError` divide by zero: the guarded embedding returns `none`. -/
theorem zero_depth_residual_divides_by_zero {F : Type} [Field F] [DecidableEq F]
    (T E : SE3 F) (p : Vec3 F) (m : Vec2 F) (fx fy cx cy : F) :
    ((T.act p) 2 = 0 →
      EdgeProjectionPoseOnly.computeError p (pinhole fx fy cx cy) m T = none) ∧
    ((E.act (T.act p)) 2 = 0 →
      EdgeProjection.computeError (pinhole fx fy cx cy) E m T p = none) := by
  constructor
  · intro h
    rw [EdgeProjectionPoseOnly.computeError_eq_unary, pinhole_mulVec_two, if_pos h]
  · intro h
    rw [EdgeProjection.computeError_eq_binary, pinhole_mulVec_two, if_pos h]

/-- C10, at the failing input: identity pose (and extrinsics), point
`(1, 1, 0)`, identity intrinsics, measurement `(0, 0)`. -/
theorem zero_depth_residual_divides_by_zero_witness :
    EdgeProjectionPoseOnly.computeError (![1, 1, 0] : Vec3 ℚ) (pinhole 1 1 0 0) ![0, 0]
        SE3.identity = none ∧
    EdgeProjection.computeError (pinhole 1 1 0 0) SE3.identity ![0, 0] SE3.identity
        (![1, 1, 0] : Vec3 ℚ) = none :=
  ⟨(zero_depth_residual_divides_by_zero SE3.identity SE3.identity ![1, 1, 0] ![0, 0]
      1 1 0 0).1 (by simp [SE3.identity_act]),
    (zero_depth_residual_divides_by_zero SE3.identity SE3.identity ![1, 1, 0] ![0, 0]
      1 1 0 0).2 (by simp [SE3.identity_act])⟩

/-- C11, as stated, at concrete inputs: at the depth `Z = -1e-18` (identity
pose and extrinsics, point `(0, 0, -1e-18)`) the denominator `Z + 1e-18` is
zero and `linearizeOplus` of both edges divides by zero.  Nor is every entry
finite where the division succeeds: at the point `(2 ^ 600, 0, 1)` with
`fx = 1` the entry `-fx - fx·X²·Zinv2` is larger in absolute value than every
finite binary64 number. -/
theorem epsilon_guard_fails_at_minus_eps :
    ((SE3.identity : SE3 ℝ).act ![0, 0, -(1 / 10 ^ 18)]) 2 + 1 / 10 ^ 18 = 0 ∧
    EdgeProjectionPoseOnly.linearizeOplus (![0, 0, -(1 / 10 ^ 18)] : Vec3 ℝ)
      (pinhole 1 1 0 0) SE3.identity = none ∧
    EdgeProjection.linearizeOplus (pinhole 1 1 0 0) SE3.identity (SE3.identity : SE3 ℝ)
      ![0, 0, -(1 / 10 ^ 18)] = none ∧
    (∃ J, EdgeProjectionPoseOnly.linearizeOplus (![2 ^ 600, 0, 1] : Vec3 ℚ)
        (pinhole 1 1 0 0) SE3.identity = some J ∧
      ∀ x : ℚ, IsDouble x → |x| < |J 0 4|) := by
  have hz : ((SE3.identity : SE3 ℝ).act ![0, 0, -(1 / 10 ^ 18)]) 2 + 1 / 10 ^ 18 = 0 := by
    rw [SE3.identity_act]
    simp
  refine ⟨hz, ?_, ?_, ?_⟩
  · simp only [EdgeProjectionPoseOnly.linearizeOplus, EdgeProjectionPoseOnly.linearizeOplusWith,
      depthEps, fdiv]
    rw [if_pos hz]
    rfl
  · simp only [EdgeProjection.linearizeOplus, EdgeProjection.linearizeOplusWith,
      depthEps, fdiv, SE3.identity_mul]
    rw [if_pos hz]
    rfl
  · rw [EdgeProjectionPoseOnly.linearizeOplus, depthEps,
      EdgeProjectionPoseOnly.linearizeOplusWith_eq, SE3.identity_act]
    have hd : ¬ ((![2 ^ 600, 0, 1] : Vec3 ℚ) 2 + 1 / 10 ^ 18 = 0) := by
      simp
      norm_num
    rw [if_neg hd]
    refine ⟨_, rfl, fun x hx => lt_of_lt_of_le hx.abs_lt_two_pow ?_⟩
    simp [pinhole]
    rw [abs_of_neg (by norm_num)]
    norm_num

/-- C11, amended. For every real camera-frame depth `Z`, the denominator
`Z + 1e-18` of both `linearizeOplus` is zero exactly when `Z = -1e-18`.  At
every other depth, in particular at every `Z ≥ 0` (zero included), the
division that defines `Zinv` is not a division by zero, it yields
`1 / (Z + 1e-18)`, and the Jacobian is returned; at `Z = -1e-18` none is. -/
theorem epsilon_guard_domain (T E : SE3 ℝ) (p : Vec3 ℝ) (K : Mat33 ℝ) :
    (∀ Z : ℝ, Z + 1 / 10 ^ 18 = 0 ↔ Z = -(1 / 10 ^ 18)) ∧
    (∀ Z : ℝ, Z ≠ -(1 / 10 ^ 18) →
      fdiv 1 (Z + 1 / 10 ^ 18) = some (1 / (Z + 1 / 10 ^ 18))) ∧
    (∀ Z : ℝ, 0 ≤ Z → fdiv 1 (Z + 1 / 10 ^ 18) = some (1 / (Z + 1 / 10 ^ 18))) ∧
    ((EdgeProjectionPoseOnly.linearizeOplus p K T).isSome
      ↔ (T.act p) 2 ≠ -(1 / 10 ^ 18)) ∧
    ((EdgeProjection.linearizeOplus K E T p).isSome
      ↔ ((E.mul T).act p) 2 ≠ -(1 / 10 ^ 18)) ∧
    (0 ≤ (T.act p) 2 → (EdgeProjectionPoseOnly.linearizeOplus p K T).isSome) ∧
    (0 ≤ ((E.mul T).act p) 2 → (EdgeProjection.linearizeOplus K E T p).isSome) := by
  have key : ∀ Z : ℝ, Z + 1 / 10 ^ 18 = 0 ↔ Z = -(1 / 10 ^ 18) := fun Z =>
    ⟨fun h => by linarith, fun h => by rw [h]; ring⟩
  have hdiv : ∀ Z : ℝ, Z ≠ -(1 / 10 ^ 18) →
      fdiv 1 (Z + 1 / 10 ^ 18) = some (1 / (Z + 1 / 10 ^ 18)) := by
    intro Z hZ
    rw [fdiv, if_neg (fun h => hZ ((key Z).mp h))]
  have hpos : ∀ Z : ℝ, 0 ≤ Z → Z ≠ -(1 / 10 ^ 18) := by
    intro Z hZ h
    have : (0 : ℝ) < 1 / 10 ^ 18 := by positivity
    linarith
  have h1 : (EdgeProjectionPoseOnly.linearizeOplus p K T).isSome
      ↔ (T.act p) 2 ≠ -(1 / 10 ^ 18) := by
    simp only [EdgeProjectionPoseOnly.linearizeOplus, EdgeProjectionPoseOnly.linearizeOplusWith,
      depthEps, fdiv, ne_eq, ← key]
    by_cases h : (T.act p) 2 + 1 / 10 ^ 18 = 0
    · rw [if_pos h]
      exact ⟨fun h' => (by cases h'), fun h' => absurd h h'⟩
    · rw [if_neg h]
      exact ⟨fun _ => h, fun _ => rfl⟩
  have h2 : (EdgeProjection.linearizeOplus K E T p).isSome
      ↔ ((E.mul T).act p) 2 ≠ -(1 / 10 ^ 18) := by
    simp only [EdgeProjection.linearizeOplus, EdgeProjection.linearizeOplusWith,
      depthEps, fdiv, ne_eq, ← key]
    by_cases h : ((E.mul T).act p) 2 + 1 / 10 ^ 18 = 0
    · rw [if_pos h]
      exact ⟨fun h' => (by cases h'), fun h' => absurd h h'⟩
    · rw [if_neg h]
      exact ⟨fun _ => h, fun _ => rfl⟩
  exact ⟨key, hdiv, fun Z hZ => hdiv Z (hpos Z hZ), h1, h2,
    fun h => h1.mpr (hpos _ h), fun h => h2.mpr (hpos _ h)⟩

/-- C13. Pose update round trip: for every estimate `T` and every 6-vector
`δ`, `oplusImpl(δ)` followed by `oplusImpl(-δ)` returns the estimate to `T`,
because `Exp(-δ) · Exp(δ)` is the identity. -/
theorem pose_update_round_trip (T : SE3 ℝ) (d : Fin 6 → ℝ) :
    VertexPose.oplusImpl SE3.exp (VertexPose.oplusImpl SE3.exp T d) (-d) = T ∧
    (SE3.exp (-d)).mul (SE3.exp d) = SE3.identity := by
  refine ⟨?_, SE3.exp_neg_mul d⟩
  rw [VertexPose.oplusImpl_eq_mul, VertexPose.oplusImpl_eq_mul, ← SE3.mul_assoc,
    SE3.exp_neg_mul, SE3.identity_mul]

/-- C14. Zero-residual case: for every `fx`, `fy`, the unary edge with
`_pos3d = (0, 0, 1)`, intrinsics `diag(fx, fy, 1)` and measurement `(0, 0)`,
at the estimate that `VertexPose::setToOriginImpl` leaves, has
`computeError` return exactly `(0, 0)`. -/
theorem zero_residual_at_identity {F : Type} [Field F] [DecidableEq F] (fx fy : F) :
    EdgeProjectionPoseOnly.computeError ![0, 0, 1] (Matrix.diagonal ![fx, fy, 1]) ![0, 0]
      VertexPose.setToOriginImpl = some ![0, 0] := by
  have hh : (Matrix.diagonal ![fx, fy, 1]).mulVec
      ((VertexPose.setToOriginImpl : SE3 F).act ![0, 0, 1]) = ![0, 0, 1] := by
    rw [VertexPose.setToOriginImpl, SE3.identity_act]
    ext i
    fin_cases i <;> simp [Matrix.mulVec, Matrix.dotProduct, Fin.sum_univ_three, Matrix.diagonal]
  rw [EdgeProjectionPoseOnly.computeError_eq_unary]
  simp only [hh]
  rw [if_neg (by simp)]
  congr 1
  ext i
  fin_cases i <;> simp [projResidual, head2, hh]

/-- C15, as stated, at a concrete input: after `setToOriginImpl`, with `K = I`,
the projection of the unary edge (`pos_pixel = _K * (T * _pos3d)` followed by
`pos_pixel /= pos_pixel[2]`) sends `p = (2, 4, 2)` to `(1, 2, 1)`, not to `p`;
with measurement `(0, 0)` the residual is `(-1, -2)`. -/
theorem identity_projection_normalises :
    vdiv ((1 : Mat33 ℚ).mulVec ((VertexPose.setToOriginImpl : SE3 ℚ).act ![2, 4, 2]))
        (((1 : Mat33 ℚ).mulVec ((VertexPose.setToOriginImpl : SE3 ℚ).act ![2, 4, 2])) 2)
      = some ![1, 2, 1] ∧
    (![1, 2, 1] : Vec3 ℚ) ≠ ![2, 4, 2] ∧
    EdgeProjectionPoseOnly.computeError (![2, 4, 2] : Vec3 ℚ) 1 ![0, 0]
      VertexPose.setToOriginImpl = some ![-1, -2] := by
  have hp : (1 : Mat33 ℚ).mulVec ((VertexPose.setToOriginImpl : SE3 ℚ).act ![2, 4, 2])
      = ![2, 4, 2] := by
    rw [VertexPose.setToOriginImpl, SE3.identity_act, Matrix.one_mulVec]
  refine ⟨?_, ?_, ?_⟩
  · rw [hp, vdiv_eq, if_neg (by norm_num)]
    congr 1
    ext i
    fin_cases i <;> norm_num
  · intro h
    have h0 := congrFun h 0
    norm_num at h0
  · rw [EdgeProjectionPoseOnly.computeError_eq_unary, hp, if_neg (by norm_num)]
    congr 1
    ext i
    fin_cases i <;> norm_num [projResidual, head2, hp]

/-- C15, amended. After `setToOriginImpl` (from any prior estimate `T0`), for
every point `p` and `K = I`: the transform and the intrinsics leave the point
unchanged, `_K * (T * p) = p`; the projection of the edge then divides by the
depth, so for `p 2 ≠ 0` the projected point is `(p 0 / p 2, p 1 / p 2, 1)` and
the residual is `m - (p 0 / p 2, p 1 / p 2)`; the projected point is `p` itself
when `p 2 = 1`. -/
theorem identity_transform_check {F : Type} [Field F] [DecidableEq F] (Exp : Vec6 F → SE3 F)
    (T0 : SE3 F) (p : Vec3 F) (m : Vec2 F) :
    (1 : Mat33 F).mulVec ((VertexPose.step Exp T0 VertexPose.Op.setToOrigin).act p) = p ∧
    (p 2 ≠ 0 →
      vdiv ((1 : Mat33 F).mulVec ((VertexPose.step Exp T0 VertexPose.Op.setToOrigin).act p))
          (((1 : Mat33 F).mulVec
            ((VertexPose.step Exp T0 VertexPose.Op.setToOrigin).act p)) 2)
        = some ![p 0 / p 2, p 1 / p 2, 1]) ∧
    (p 2 ≠ 0 →
      EdgeProjectionPoseOnly.computeError p 1 m
          (VertexPose.step Exp T0 VertexPose.Op.setToOrigin)
        = some ![m 0 - p 0 / p 2, m 1 - p 1 / p 2]) ∧
    (p 2 = 1 →
      vdiv ((1 : Mat33 F).mulVec ((VertexPose.step Exp T0 VertexPose.Op.setToOrigin).act p))
          (((1 : Mat33 F).mulVec
            ((VertexPose.step Exp T0 VertexPose.Op.setToOrigin).act p)) 2)
        = some p) := by
  have hp : (1 : Mat33 F).mulVec ((VertexPose.step Exp T0 VertexPose.Op.setToOrigin).act p)
      = p := by
    rw [VertexPose.step, VertexPose.setToOriginImpl, SE3.identity_act, Matrix.one_mulVec]
  refine ⟨hp, ?_, ?_, ?_⟩
  · intro h
    rw [hp, vdiv_eq, if_neg h, div_self h]
  · intro h
    rw [EdgeProjectionPoseOnly.computeError_eq_unary, hp, if_neg h]
    congr 1
    ext i
    fin_cases i <;> simp [projResidual, head2, hp]
  · intro h
    rw [hp, vdiv_eq, h, if_neg one_ne_zero]
    congr 1
    ext i
    fin_cases i <;> simp [h]

/-- C16. `VertexXYZ::oplusImpl`: for every estimate `e` and update `delta` the
new estimate is `e + delta`, component by component (entry `i` of the result
is `e i + delta i` for `i = 0, 1, 2`); after `setToOriginImpl` an update
leaves the estimate equal to `delta`. -/
theorem landmark_oplus_is_addition {F : Type} [Field F] (e delta : Fin 3 → F) :
    VertexXYZ.oplusImpl e delta = e + delta ∧
    (VertexXYZ.oplusImpl e delta 0 = e 0 + delta 0 ∧
      VertexXYZ.oplusImpl e delta 1 = e 1 + delta 1 ∧
      VertexXYZ.oplusImpl e delta 2 = e 2 + delta 2) ∧
    VertexXYZ.oplusImpl VertexXYZ.setToOriginImpl delta = delta := by
  refine ⟨VertexXYZ.oplusImpl_eq_add e delta, ⟨rfl, rfl, rfl⟩, ?_⟩
  rw [VertexXYZ.oplusImpl_eq_add, VertexXYZ.setToOriginImpl, zero_add]

/-- C17. Reduction to the unary edge: for every pose `T`, point `p`,
intrinsics `K` and measurement `m`, the binary edge with identity extrinsics
and landmark estimate `p` has the same `computeError` result and the same
`_jacobianOplusXi` as the unary edge built from `p`, `K` and `m`. -/
theorem reprojection_reduces_to_poseOnly {F : Type} [Field F] [DecidableEq F] (T : SE3 F)
    (p : Vec3 F) (K : Mat33 F) (m : Vec2 F) :
    EdgeProjection.computeError K SE3.identity m T p
        = EdgeProjectionPoseOnly.computeError p K m T ∧
      (EdgeProjection.linearizeOplus K SE3.identity T p).map Prod.fst
        = EdgeProjectionPoseOnly.linearizeOplus p K T := by
  constructor
  · rw [EdgeProjection.computeError_eq_binary, EdgeProjectionPoseOnly.computeError_eq_unary,
      SE3.identity_act]
  · simp only [EdgeProjection.linearizeOplus, EdgeProjection.linearizeOplusWith,
      EdgeProjectionPoseOnly.linearizeOplus, EdgeProjectionPoseOnly.linearizeOplusWith,
      SE3.identity_mul, Option.map_map]
    rfl

/-- C18. Same linearisation point: the point `(_cam_ext * T) * pw` at which
`EdgeProjection::linearizeOplus` evaluates its closed form is the point
`_cam_ext * (T * pw)` that `computeError` projects; both results are those of
the unary edge at that one camera-frame point. -/
theorem same_linearisation_point {F : Type} [Field F] [DecidableEq F] (K : Mat33 F)
    (E T : SE3 F) (p : Vec3 F) (m : Vec2 F) :
    (E.mul T).act p = E.act (T.act p) ∧
    EdgeProjection.computeError K E m T p
      = EdgeProjectionPoseOnly.computeError ((E.mul T).act p) K m SE3.identity ∧
    (EdgeProjection.linearizeOplus K E T p).map Prod.fst
      = EdgeProjectionPoseOnly.linearizeOplus ((E.mul T).act p) K SE3.identity := by
  refine ⟨SE3.act_mul E T p, ?_, ?_⟩
  · rw [EdgeProjection.computeError_eq_binary, EdgeProjectionPoseOnly.computeError_eq_unary,
      SE3.identity_act, SE3.act_mul]
  · simp only [EdgeProjection.linearizeOplus, EdgeProjection.linearizeOplusWith,
      EdgeProjectionPoseOnly.linearizeOplus, EdgeProjectionPoseOnly.linearizeOplusWith,
      SE3.identity_act, Option.map_map]
    rfl

end myslam
